import Mathlib

/-!
Verification of the OMFK training tools.

This file shallowly embeds the Python sources under `Tools/` and proves
properties claimed of them:

* `Tools/CoreMLTrainer/generate_data.py`: `load_layout_map` (the per-pair
  conversion-map construction), `convert_text`, `generate_sample`;
* `Tools/NgramTrainer/train_ngrams.py`: `normalize_text`,
  `extract_trigrams`, `train_model`, `validate_model`;
* `Tools/NgramTrainer/train_unigrams.py`: `iter_words`, `train_unigrams`
  (the periodic-pruning accumulation loop).

Text is modelled as `List Char`; Python dictionaries keyed by characters
are modelled as functions `Char → Option Char` built by repeated override
(exactly the lookup semantics of dict assignment); fatal `sys.exit` paths
and raised exceptions are modelled with `Option`; the float arithmetic of
the trainer is modelled over the exact rationals and reals, with
`round(x, 2)` modelled as rounding `x` to the nearest hundredth.
-/

namespace OMFK

/-! ## Layout conversion (`generate_data.py`) -/

/-- Modifier state of a physical key: `n` (normal) or `s` (shift),
mirroring the `'n'`/`'s'` fields of the layout JSON. -/
inductive Mod where
  | n : Mod
  | s : Mod
deriving DecidableEq

/-- The joint layout table (`data['map']` of the layout JSON):
an iteration-ordered list of physical-key identifiers together with the
total lookup `char key layoutId mod`, which returns `none` whenever the
key, the layout entry or the modifier field is absent — exactly the
behaviour of `get_char` in `generate_data.py`. -/
structure KeyMap where
  keys : List String
  char : String → String → Mod → Option Char

/-- The pair contributed by one physical key at one modifier state in
`load_layout_map`: `some (s_char, t_char)` iff both the source layout and
the target layout define a character there (`if s_char and t_char`). -/
def pairAt (km : KeyMap) (sL tL : String) (k : String) (m : Mod) :
    Option (Char × Char) :=
  match km.char k sL m, km.char k tL m with
  | some a, some b => some (a, b)
  | _, _ => none

/-- All `(source char, target char)` pairs inserted into the mapping dict
by `load_layout_map` for one `(s_layout, t_layout)` pair, in insertion
order: keys in table order, normal entry before shift entry for each key. -/
def entryList (km : KeyMap) (sL tL : String) : List (Char × Char) :=
  km.keys.flatMap fun k =>
    (pairAt km sL tL k Mod.n).toList ++ (pairAt km sL tL k Mod.s).toList

/-- One assignment `mapping[s_char] = t_char` into a dict modelled as
`Char → Option Char`: a later assignment overrides an earlier one with
the same key, as in Python. -/
def dictInsert (m : Char → Option Char) (p : Char × Char) :
    Char → Option Char :=
  fun c => if c = p.1 then some p.2 else m c

/-- The inner loop of `load_layout_map` for one `(s_layout, t_layout)`
pair: start from the empty dict `mapping = {}` and, for every key of the
table, assign the normal-entry pair and then the shift-entry pair when
both sides define a character. -/
def build_mapping (km : KeyMap) (sL tL : String) : Char → Option Char :=
  km.keys.foldl
    (fun m k =>
      let m1 :=
        match pairAt km sL tL k Mod.n with
        | some p => dictInsert m p
        | none => m
      match pairAt km sL tL k Mod.s with
      | some p => dictInsert m1 p
      | none => m1)
    (fun _ => none)

/-- `convert_text(text, mapping)`: `"".join(mapping.get(c, c) for c in text)`. -/
def convert_text (text : List Char) (mapping : Char → Option Char) :
    List Char :=
  text.map fun c => (mapping c).getD c

/-- The value a Python dict lookup returns after the pairs of `l` have
been assigned in order into a dict: the last pair with the given key. -/
def lookupLast (l : List (Char × Char)) (c : Char) : Option Char :=
  l.reverse.lookup c

/-! ## Dataset generation (`generate_data.py`, `generate_sample`) -/

/-- The separator `'_from_'` used in composite class names. -/
def sepFrom : List Char := ['_', 'f', 'r', 'o', 'm', '_']

/-- Fuel-indexed worker for Python's `str.split(sep)` on character lists:
scan left to right, cutting at each (non-overlapping) occurrence of
`sep`. The fuel is an upper bound on the number of scan steps; with fuel
`≥ length + 1` the exhaustion branch is unreachable. -/
def splitSubAux (sep : List Char) : Nat → List Char → List Char → List (List Char)
  | _, [], buf => [buf.reverse]
  | 0, l, buf => [buf.reverse ++ l]
  | fuel + 1, c :: rest, buf =>
      if sep.isPrefixOf (c :: rest) ∧ sep ≠ [] then
        buf.reverse :: splitSubAux sep fuel ((c :: rest).drop sep.length) []
      else
        splitSubAux sep fuel rest (c :: buf)

/-- Python's `text.split(sep)` for a non-empty separator. -/
def pysplit (l : List Char) (sep : List Char) : List (List Char) :=
  splitSubAux sep (l.length + 1) l []

/-- The random draws consumed by one `generate_sample` call, made
explicit: `numWords` feeds `random.randint(1, max_phrase_len)` (the
result used is `1 + numWords % max_phrase_len`), `wordIdx i` feeds the
`i`-th `random.choice` over the seed lexicon (used modulo its length),
and `mapIdx` feeds `random.choice` over the candidate maps. -/
structure Rand where
  numWords : Nat
  wordIdx : Nat → Nat
  mapIdx : Nat

/-- The pure class names `['ru', 'en', 'he']`. -/
def pureClasses : List (List Char) := [['r', 'u'], ['e', 'n'], ['h', 'e']]

/-- `generate_sample(class_name, maps, max_phrase_len)` of
`generate_data.py`, with the `SEEDS` table and the random draws passed
explicitly. `none` models a raised exception (`KeyError` on a missing
seed lexicon, `IndexError`/`ValueError` on an empty choice or
`max_phrase_len = 0`, `IndexError` on a class name without `'_from_'`). -/
def generate_sample (seeds : List Char → Option (List (List Char)))
    (class_name : List Char)
    (maps : List Char → List (Char → Option Char))
    (rand : Rand) (max_phrase_len : Nat) : Option (List Char × List Char) :=
  if class_name ∈ pureClasses then
    match seeds class_name with
    | none => none
    | some ws =>
        if ws.isEmpty ∨ max_phrase_len = 0 then none
        else
          let n := 1 + rand.numWords % max_phrase_len
          some (List.intercalate [' ']
            ((List.range n).map fun i => ws.getD (rand.wordIdx i % ws.length) []),
            class_name)
  else
    match pysplit class_name sepFrom with
    | p0 :: p1 :: _ =>
        let map_key := p1 ++ sepFrom ++ p0
        let available := maps map_key
        if available.isEmpty then some (['x'], class_name)
        else
          match seeds p0 with
          | none => none
          | some ws =>
              if ws.isEmpty ∨ max_phrase_len = 0 then none
              else
                let mapping := available.getD (rand.mapIdx % available.length) (fun _ => none)
                let n := 1 + rand.numWords % max_phrase_len
                let text := List.intercalate [' ']
                  ((List.range n).map fun i => ws.getD (rand.wordIdx i % ws.length) [])
                some (convert_text text mapping, class_name)
    | _ => none

/-! ## Trigram training (`train_ngrams.py`) -/

/-- The language tags accepted by the trainers (`--lang` is restricted to
these choices; `normalize_text` raises on anything else). -/
inductive Lang where
  | ru : Lang
  | en : Lang
  | he : Lang
deriving DecidableEq

/-- Python `str.lower()` at the scalar-value level, restricted to the
alphabets the trainers touch: uppercase ASCII `A`–`Z` and uppercase
Cyrillic `А`–`Я` map down by `0x20`, `Ё` maps to `ё`; every other scalar
is left unchanged. -/
def lowerNat (v : Nat) : Nat :=
  if 0x41 ≤ v ∧ v ≤ 0x5A then v + 0x20
  else if 0x410 ≤ v ∧ v ≤ 0x42F then v + 0x20
  else if v = 0x401 then 0x451
  else v

/-- Character-wise model of Python `str.lower()` (see `lowerNat`). -/
def pyLower (c : Char) : Char :=
  if lowerNat c.toNat = c.toNat then c else Char.ofNat (lowerNat c.toNat)

/-- The per-language valid-letter sets of `normalize_text`
(`train_ngrams.py`) and `valid_chars_for` (`train_unigrams.py`):
`ru` is `range(0x0410, 0x044F + 1)` plus `'ё'`, `en` is `a`–`z`,
`he` is `range(0x0590, 0x05FF + 1)`. -/
def valid_chars (lang : Lang) (c : Char) : Bool :=
  match lang with
  | Lang.ru => decide ((0x410 ≤ c.toNat ∧ c.toNat ≤ 0x44F) ∨ c.toNat = 0x451)
  | Lang.en => decide (0x61 ≤ c.toNat ∧ c.toNat ≤ 0x7A)
  | Lang.he => decide (0x590 ≤ c.toNat ∧ c.toNat ≤ 0x5FF)

/-- `normalize_text(text, lang)`: lowercase, then keep only the
language's valid letters. -/
def normalize_text (text : List Char) (lang : Lang) : List Char :=
  (text.map pyLower).filter (valid_chars lang)

/-- `extract_trigrams(text)`: `text[i:i+3]` for `i in range(len(text)-2)`,
kept only when the slice has length 3 (the source's defensive check). -/
def extract_trigrams (text : List Char) : List (List Char) :=
  ((List.range (text.length - 2)).map fun i => (text.drop i).take 3).filter
    fun g => decide (g.length = 3)

/-- The ASCII whitespace stripped by Python's `str.strip()` (the corpus
lines the trainers see are ASCII-spaced; exotic Unicode whitespace is out
of scope of this model). -/
def isSpacePy (c : Char) : Bool :=
  c ∈ [' ', '\t', '\n', '\r', '\x0b', '\x0c']

/-- Python `line.strip()`. -/
def pystrip (l : List Char) : List Char :=
  ((l.dropWhile isSpacePy).reverse.dropWhile isSpacePy).reverse

/-- The trigrams one corpus line contributes in `train_model`'s reading
loop: strip; skip the line if empty; normalize; skip if the normalized
form is shorter than 3; otherwise extract all trigrams. -/
def lineTrigrams (lang : Lang) (line : List Char) : List (List Char) :=
  let stripped := pystrip line
  if stripped.isEmpty then []
  else
    let normalized := normalize_text stripped lang
    if normalized.length < 3 then []
    else extract_trigrams normalized

/-- The multiset (as an ordered list) of all trigram occurrences
accumulated into `trigram_counts` over the corpus. -/
def allTrigrams (lang : Lang) (lines : List (List Char)) : List (List Char) :=
  lines.flatMap (lineTrigrams lang)

/-- `total_count = sum(trigram_counts.values())`. -/
def totalCount (lang : Lang) (lines : List (List Char)) : Nat :=
  (allTrigrams lang lines).length

/-- The distinct trigrams, in first-appearance order (the iteration order
of the `Counter`). -/
def vocab (lang : Lang) (lines : List (List Char)) : List (List Char) :=
  (allTrigrams lang lines).dedup

/-- `vocab_size = len(trigram_counts)`. -/
def vocabSize (lang : Lang) (lines : List (List Char)) : Nat :=
  (vocab lang lines).length

/-- `trigram_counts[t]`: the number of occurrences of `t` among the
accumulated trigrams (counted with the decidable-equality instance, as
the `Counter` counts by equality). -/
def trigramCount (lang : Lang) (lines : List (List Char)) (t : List Char) : Nat :=
  @List.count (List Char) instBEqOfDecidableEq t (allTrigrams lang lines)

/-- The smoothed probability computed in `train_model`:
`(count + k) / (total_count + k * vocab_size)`. -/
def prob (lang : Lang) (lines : List (List Char)) (k : ℚ) (t : List Char) : ℚ :=
  ((trigramCount lang lines t : ℚ) + k) /
    ((totalCount lang lines : ℚ) + k * (vocabSize lang lines : ℚ))

/-- `round(x, 2)`: rounding to the nearest hundredth (Python rounds the
float to 2 decimal places; ties, which no transcendental log-probability
attains, are immaterial to the claims proved here). -/
noncomputable def round2 (x : ℝ) : ℝ :=
  ((round (x * 100) : ℤ) : ℝ) / 100

/-- The stored value `round(math.log(prob), 2)` for one trigram. -/
noncomputable def storedLogProb (lang : Lang) (lines : List (List Char))
    (k : ℚ) (t : List Char) : ℝ :=
  round2 (Real.log ((prob lang lines k t : ℚ) : ℝ))

/-- The model dictionary built at the end of `train_model`. -/
structure Model where
  lang : Lang
  n : Nat
  version : Nat
  smoothing_k : ℚ
  total_count : Nat
  unique_trigrams : Nat
  trigrams : List (List Char × ℝ)

/-- The `trigrams` field: each distinct trigram paired with its stored
rounded log-probability. -/
noncomputable def modelTrigrams (lang : Lang) (lines : List (List Char))
    (k : ℚ) : List (List Char × ℝ) :=
  (vocab lang lines).map fun t => (t, storedLogProb lang lines k t)

/-- `train_model(input_file, lang, smoothing_k)`, over the corpus's list
of lines: `none` models the fatal `sys.exit(1)` when no trigrams were
extracted; otherwise the model dictionary is returned. -/
noncomputable def train_model (lines : List (List Char)) (lang : Lang)
    (k : ℚ) : Option Model :=
  if allTrigrams lang lines = [] then none
  else
    some
      { lang := lang
        n := 3
        version := 1
        smoothing_k := k
        total_count := totalCount lang lines
        unique_trigrams := vocabSize lang lines
        trigrams := modelTrigrams lang lines k }

/-- A model dictionary as read back by `validate_model`: each of the
artifact's fields may be present or absent. -/
structure ModelDict where
  lang : Option Lang
  n : Option Nat
  version : Option Nat
  smoothing_k : Option ℚ
  total_count : Option Nat
  unique_trigrams : Option Nat
  trigrams : Option (List (List Char × ℚ))

/-- `validate_model(model)`: `False` iff one of the required fields
`['lang', 'n', 'version', 'trigrams']` is missing or the trigram table is
empty; the `n != 3` and positive-log-probability checks only print
warnings and never affect the result. -/
def validate_model (m : ModelDict) : Bool :=
  m.lang.isSome && m.n.isSome && m.version.isSome && m.trigrams.isSome &&
    !(m.trigrams.getD []).isEmpty

/-! ## Unigram training (`train_unigrams.py`) -/

/-- Worker for `iter_words`: accumulate valid characters into `buf`,
yield `buf` at each invalid character if non-empty, and yield the final
`buf` if non-empty. -/
def iterWordsAux (valid : Char → Bool) : List Char → List Char → List (List Char)
  | [], buf => if buf.isEmpty then [] else [buf.reverse]
  | c :: rest, buf =>
      if valid c then iterWordsAux valid rest (c :: buf)
      else if buf.isEmpty then iterWordsAux valid rest buf
      else buf.reverse :: iterWordsAux valid rest []

/-- `iter_words(line, valid)`: maximal runs of valid characters of the
lowercased line. -/
def iter_words (line : List Char) (valid : Char → Bool) : List (List Char) :=
  iterWordsAux valid (line.map pyLower) []

/-- `counts[w] += 1` on a `Counter` modelled as an insertion-ordered
association list with distinct keys: update in place if present, else
append with count 1. -/
def incr (cs : List (List Char × Nat)) (w : List Char) :
    List (List Char × Nat) :=
  if cs.any fun p => decide (p.1 = w) then
    cs.map fun p => if p.1 = w then (p.1, p.2 + 1) else p
  else cs ++ [(w, 1)]

/-- `counts.most_common(n)`: entries sorted by count descending (stably,
as Python does), truncated to the `n` largest. -/
def most_common (cs : List (List Char × Nat)) (n : Nat) :
    List (List Char × Nat) :=
  (cs.mergeSort fun a b => decide (b.2 ≤ a.2)).take n

/-- The inner loop of `train_unigrams` for one line: accumulate every
word of the line whose length is at least `min_len`. -/
def processLine (valid : Char → Bool) (min_len : Nat)
    (cs : List (List Char × Nat)) (line : List Char) :
    List (List Char × Nat) :=
  (iter_words line valid).foldl
    (fun cs w => if w.length < min_len then cs else incr cs w) cs

/-- The pruning check after each line: if the vocabulary exceeds
`prune_max_vocab`, keep only the `prune_keep` most frequent entries
(`counts = Counter(dict(counts.most_common(prune_keep)))`). -/
def pruneStep (prune_max_vocab prune_keep : Nat)
    (cs : List (List Char × Nat)) : List (List Char × Nat) :=
  if prune_max_vocab < cs.length then most_common cs prune_keep else cs

/-- One full line step of `train_unigrams`: accumulate, then prune. -/
def lineStep (valid : Char → Bool) (min_len prune_max_vocab prune_keep : Nat)
    (cs : List (List Char × Nat)) (line : List Char) :
    List (List Char × Nat) :=
  pruneStep prune_max_vocab prune_keep (processLine valid min_len cs line)

/-- The count table after `train_unigrams`'s reading loop over the whole
corpus, starting from the empty `Counter`. -/
def unigramCounts (lang : Lang) (min_len prune_max_vocab prune_keep : Nat)
    (lines : List (List Char)) : List (List Char × Nat) :=
  lines.foldl (lineStep (valid_chars lang) min_len prune_max_vocab prune_keep) []

/-- `train_unigrams(...)`: `none` models the fatal exit when no tokens
were extracted; otherwise the `top_n` most frequent words. -/
def train_unigrams (lines : List (List Char)) (lang : Lang)
    (top_n min_len prune_max_vocab prune_keep : Nat) :
    Option (List (List Char × Nat)) :=
  let counts := unigramCounts lang min_len prune_max_vocab prune_keep lines
  if counts.isEmpty then none else some (most_common counts top_n)

/-! ## Concrete instances used by witnesses and counterexamples -/

/-- Concrete joint table realizing the spec's Scenario 1: physical key
`KeyG` produces base `'g'` / shift `'G'` on layout `en_us` and base `'п'`
/ shift `'П'` on layout `ru_pc`. -/
def kmScenario : KeyMap where
  keys := ["KeyG"]
  char := fun k l m =>
    if k = "KeyG" then
      if l = "ru_pc" then
        match m with
        | Mod.n => some 'п'
        | Mod.s => some 'П'
      else if l = "en_us" then
        match m with
        | Mod.n => some 'g'
        | Mod.s => some 'G'
      else none
    else none

/-- A joint table in which two physical keys produce the same character
`'a'` on layout `L1` but different characters on layout `L2` (the
source-side duplication the repository itself observes for Hebrew
layouts). -/
def kmDup : KeyMap where
  keys := ["K1", "K2"]
  char := fun k l m =>
    match m with
    | Mod.s => none
    | Mod.n =>
        if k = "K1" then
          if l = "L1" then some 'a' else if l = "L2" then some 'x' else none
        else if k = "K2" then
          if l = "L1" then some 'a' else if l = "L2" then some 'y' else none
        else none

/-- A joint table in which two physical keys produce distinct characters
on layout `L1` but the same character `'x'` on layout `L2`. -/
def kmCollide : KeyMap where
  keys := ["K1", "K2"]
  char := fun k l m =>
    match m with
    | Mod.s => none
    | Mod.n =>
        if k = "K1" then
          if l = "L1" then some 'a' else if l = "L2" then some 'x' else none
        else if k = "K2" then
          if l = "L1" then some 'b' else if l = "L2" then some 'x' else none
        else none

/-- The two-line corpus of the spec's Scenario 3. -/
def corpus6 : List (List Char) :=
  ["привет мир".toList, "привет всем".toList]

/-- A model dictionary with every artifact field except `smoothing_k`. -/
def mdMissingK : ModelDict where
  lang := some Lang.ru
  n := some 3
  version := some 1
  smoothing_k := none
  total_count := some 15
  unique_trigrams := some 11
  trigrams := some [(['а', 'б', 'в'], -1)]

/-- A model dictionary missing the required field `lang`. -/
def mdMissingLang : ModelDict where
  lang := none
  n := some 3
  version := some 1
  smoothing_k := some 1
  total_count := some 15
  unique_trigrams := some 11
  trigrams := some [(['а', 'б', 'в'], -1)]

/-! ## Dictionary-construction lemmas -/

theorem lookup_append (l₁ l₂ : List (Char × Char)) (c : Char) :
    List.lookup c (l₁ ++ l₂) = (List.lookup c l₁).or (List.lookup c l₂) := by
  induction l₁ with
  | nil => simp [List.lookup]
  | cons p t ih =>
      by_cases h : c = p.1
      · have hb : (c == p.1) = true := by simp [h]
        simp [List.lookup, hb]
      · have hb : (c == p.1) = false := by simp [h]
        simp [List.lookup, hb, ih]

theorem lookupLast_append (l₁ l₂ : List (Char × Char)) (c : Char) :
    lookupLast (l₁ ++ l₂) c = (lookupLast l₂ c).or (lookupLast l₁ c) := by
  unfold lookupLast
  rw [List.reverse_append, lookup_append]

/-- Folding single dict assignments over a pair list computes
`lookupLast`, with the initial dict as fallback. -/
theorem foldl_dictInsert_eq (l : List (Char × Char))
    (m : Char → Option Char) (c : Char) :
    (l.foldl dictInsert m) c = (lookupLast l c).or (m c) := by
  induction l generalizing m with
  | nil => simp [lookupLast, List.lookup]
  | cons p t ih =>
      have hsplit : lookupLast (p :: t) c = (lookupLast t c).or (lookupLast [p] c) := by
        simpa using lookupLast_append [p] t c
      rw [List.foldl_cons, ih, hsplit]
      by_cases h : c = p.1
      · have hb : (c == p.1) = true := by simp [h]
        simp [lookupLast, List.lookup, hb, h, dictInsert, Option.or_assoc]
      · have hb : (c == p.1) = false := by simp [h]
        simp [lookupLast, List.lookup, hb, h, dictInsert]

/-- The per-key step of `build_mapping` equals folding the key's
entry pairs one by one. -/
theorem build_step_eq (km : KeyMap) (sL tL : String)
    (m : Char → Option Char) (k : String) :
    (let m1 :=
      match pairAt km sL tL k Mod.n with
      | some p => dictInsert m p
      | none => m
    match pairAt km sL tL k Mod.s with
    | some p => dictInsert m1 p
    | none => m1) =
    ((pairAt km sL tL k Mod.n).toList ++
      (pairAt km sL tL k Mod.s).toList).foldl dictInsert m := by
  cases pairAt km sL tL k Mod.n <;> cases pairAt km sL tL k Mod.s <;> simp

/-- `build_mapping` is dict construction from `entryList`: a lookup
returns the last inserted pair for the character, `none` for characters
never inserted. -/
theorem build_mapping_eq_lookupLast (km : KeyMap) (sL tL : String) (c : Char) :
    build_mapping km sL tL c = lookupLast (entryList km sL tL) c := by
  have main : ∀ (ks : List String) (m : Char → Option Char),
      (ks.foldl
        (fun m k =>
          let m1 :=
            match pairAt km sL tL k Mod.n with
            | some p => dictInsert m p
            | none => m
          match pairAt km sL tL k Mod.s with
          | some p => dictInsert m1 p
          | none => m1)
        m) c =
      (lookupLast (ks.flatMap fun k =>
          (pairAt km sL tL k Mod.n).toList ++
            (pairAt km sL tL k Mod.s).toList) c).or (m c) := by
    intro ks
    induction ks with
    | nil => intro m; simp [lookupLast, List.lookup]
    | cons k t ih =>
        intro m
        rw [List.foldl_cons, build_step_eq, ih, List.flatMap_cons,
          lookupLast_append, foldl_dictInsert_eq, Option.or_assoc]
  have := main km.keys (fun _ => none)
  unfold build_mapping entryList
  simpa using this

theorem lookup_eq_some_of_nodup (l : List (Char × Char)) (a : Char) (b : Char)
    (h : (l.map Prod.fst).Nodup) (hm : (a, b) ∈ l) :
    List.lookup a l = some b := by
  induction l with
  | nil => cases hm
  | cons p t ih =>
      rcases List.mem_cons.mp hm with hp | ht
      · have hb : (a == p.1) = true := by simp [← hp]
        simp [List.lookup, hb, ← hp]
      · have hne : a ≠ p.1 := by
          intro hEq
          have : p.1 ∈ t.map Prod.fst := by
            exact List.mem_map.mpr ⟨(a, b), ht, by simp [hEq]⟩
          exact (List.nodup_cons.mp h).1 this
        have hb : (a == p.1) = false := by simp [hne]
        simp [List.lookup, hb]
        exact ih (List.nodup_cons.mp h).2 ht

theorem lookup_eq_none_of_not_mem (l : List (Char × Char)) (a : Char)
    (h : a ∉ l.map Prod.fst) : List.lookup a l = none := by
  induction l with
  | nil => rfl
  | cons p t ih =>
      have hne : a ≠ p.1 := fun hEq => h (by simp [hEq])
      have hb : (a == p.1) = false := by simp [hne]
      simp only [List.lookup, hb]
      exact ih fun hmem => h (by simp only [List.map_cons, List.mem_cons]; right; exact hmem)

theorem lookupLast_eq_some_of_nodup (l : List (Char × Char)) (a : Char) (b : Char)
    (h : (l.map Prod.fst).Nodup) (hm : (a, b) ∈ l) :
    lookupLast l a = some b := by
  unfold lookupLast
  refine lookup_eq_some_of_nodup _ _ _ ?_ (List.mem_reverse.mpr hm)
  simpa using h

theorem lookupLast_eq_none_of_not_mem (l : List (Char × Char)) (a : Char)
    (h : a ∉ l.map Prod.fst) : lookupLast l a = none := by
  unfold lookupLast
  refine lookup_eq_none_of_not_mem _ _ ?_
  simpa using h

theorem lookup_mem_of_mem_fst (l : List (Char × Char)) (a : Char)
    (h : a ∈ l.map Prod.fst) :
    ∃ b, List.lookup a l = some b ∧ (a, b) ∈ l := by
  induction l with
  | nil => cases h
  | cons p t ih =>
      by_cases hp : a = p.1
      · have hb : (a == p.1) = true := by simp [hp]
        refine ⟨p.2, ?_, ?_⟩
        · simp [List.lookup, hb]
        · rw [List.mem_cons]; left; rw [hp]
      · have hb : (a == p.1) = false := by simp [hp]
        have ht : a ∈ t.map Prod.fst := by
          rcases List.mem_map.mp h with ⟨q, hq, hqa⟩
          rcases List.mem_cons.mp hq with h1 | h1
          · rw [h1] at hqa
            exact absurd hqa.symm hp
          · exact List.mem_map.mpr ⟨q, h1, hqa⟩
        obtain ⟨b, hl, hm⟩ := ih ht
        refine ⟨b, ?_, List.mem_cons.mpr (Or.inr hm)⟩
        simp [List.lookup, hb, hl]

/-- A character occurring on the source side of the entry list has a
lookup value, and the looked-up pair is itself an entry. -/
theorem lookupLast_mem_of_mem_fst (l : List (Char × Char)) (a : Char)
    (h : a ∈ l.map Prod.fst) :
    ∃ b, lookupLast l a = some b ∧ (a, b) ∈ l := by
  unfold lookupLast
  have hrev : a ∈ l.reverse.map Prod.fst := by simpa using h
  obtain ⟨b, hl, hm⟩ := lookup_mem_of_mem_fst l.reverse a hrev
  exact ⟨b, hl, List.mem_reverse.mp hm⟩

/-- Swapping source and target layouts swaps every joined pair. -/
theorem pairAt_swap (km : KeyMap) (sL tL : String) (k : String) (m : Mod) :
    pairAt km tL sL k m = (pairAt km sL tL k m).map Prod.swap := by
  unfold pairAt
  cases km.char k sL m <;> cases km.char k tL m <;> simp

/-- The entry list of the reverse direction is the pairwise swap of the
entry list of the forward direction (same keys, same join condition). -/
theorem entryList_swap (km : KeyMap) (sL tL : String) :
    entryList km tL sL = (entryList km sL tL).map Prod.swap := by
  unfold entryList
  rw [List.map_flatMap]
  refine List.flatMap_congr fun k _ => ?_
  rw [pairAt_swap km sL tL k Mod.n, pairAt_swap km sL tL k Mod.s]
  cases pairAt km sL tL k Mod.n <;> cases pairAt km sL tL k Mod.s <;> simp

/-- Membership of a fully-defined key entry in the entry list. -/
theorem mem_entryList (km : KeyMap) (sL tL : String) (k : String) (m : Mod)
    (a b : Char) (hk : k ∈ km.keys)
    (hs : km.char k sL m = some a) (ht : km.char k tL m = some b) :
    (a, b) ∈ entryList km sL tL := by
  have hpair : pairAt km sL tL k m = some (a, b) := by
    unfold pairAt; rw [hs, ht]
  unfold entryList
  refine List.mem_flatMap.mpr ⟨k, hk, ?_⟩
  cases m
  · rw [List.mem_append]; left; simp [hpair]
  · rw [List.mem_append]; right; simp [hpair]

/-! ## Claims about layout conversion -/

/-- C1, as stated, is false: when two physical keys share a source-side
character, the later dict assignment in `load_layout_map` overwrites the
earlier one. In `kmDup`, key `K1` is present in both layouts with base
chars `'a'` (source) and `'x'` (target), yet the built map does not send
`'a'` to `'x'` (it sends it to `'y'`, the target char of the later key
`K2`). -/
theorem claim1_counterexample :
    "K1" ∈ kmDup.keys ∧ kmDup.char "K1" "L1" Mod.n = some 'a' ∧
    kmDup.char "K1" "L2" Mod.n = some 'x' ∧
    build_mapping kmDup "L1" "L2" 'a' ≠ some 'x' := by decide

/-- C1 (amended): for every joint layout table and every physical key
present in both layouts whose character is defined on both sides at a
modifier state, the built conversion map sends the source character to
the target character, provided the source-side characters of the join's
entries are pairwise distinct (no two fully-defined entries share a
source character); and a character that is not the source-side character
of any fully-defined entry gets no entry (lookup yields `none`). -/
theorem claim1_conversion_entries :
    (∀ (km : KeyMap) (sL tL k : String) (m : Mod) (a b : Char),
        k ∈ km.keys → km.char k sL m = some a → km.char k tL m = some b →
        ((entryList km sL tL).map Prod.fst).Nodup →
        build_mapping km sL tL a = some b) ∧
    (∀ (km : KeyMap) (sL tL : String) (c : Char),
        c ∉ (entryList km sL tL).map Prod.fst →
        build_mapping km sL tL c = none) := by
  constructor
  · intro km sL tL k m a b hk hs ht hnd
    rw [build_mapping_eq_lookupLast]
    exact lookupLast_eq_some_of_nodup _ _ _ hnd (mem_entryList km sL tL k m a b hk hs ht)
  · intro km sL tL c hc
    rw [build_mapping_eq_lookupLast]
    exact lookupLast_eq_none_of_not_mem _ _ hc

/-- Witness for C1 at the spec's Scenario 1: `en_us` maps `KeyG` to `'g'`,
`ru_pc` maps it to `'п'`, and the map built for direction
`ru_pc → en_us` sends `'п'` to `'g'`. -/
theorem claim1_conversion_entries_witness :
    ("KeyG" ∈ kmScenario.keys ∧
      kmScenario.char "KeyG" "ru_pc" Mod.n = some 'п' ∧
      kmScenario.char "KeyG" "en_us" Mod.n = some 'g' ∧
      ((entryList kmScenario "ru_pc" "en_us").map Prod.fst).Nodup) ∧
    build_mapping kmScenario "ru_pc" "en_us" 'п' = some 'g' :=
  ⟨⟨by decide, by decide, by decide, by decide⟩,
    claim1_conversion_entries.1 kmScenario "ru_pc" "en_us" "KeyG" Mod.n 'п' 'g'
      (by decide) (by decide) (by decide) (by decide)⟩

/-- C2: `convert_text` is a pure character-wise substitution: the output
has the input's length, and its `i`-th character is the map's image of
the input's `i`-th character when that character is mapped, else the
character unchanged. -/
theorem claim2_convert_pointwise (text : List Char) (mapping : Char → Option Char) :
    (convert_text text mapping).length = text.length ∧
    ∀ i : Nat, i < text.length →
      (convert_text text mapping).getD i ' ' =
        (mapping (text.getD i ' ')).getD (text.getD i ' ') := by
  constructor
  · simp [convert_text]
  · intro i
    induction text generalizing i with
    | nil => intro h; cases h
    | cons c t ih =>
        intro h
        cases i with
        | zero => rfl
        | succ n =>
            have hn : n < t.length := Nat.lt_of_succ_lt_succ h
            simpa [convert_text] using ih n hn

/-- Witness for C2 at a concrete input. -/
theorem claim2_convert_pointwise_witness :
    (0 < (['g', 'q'] : List Char).length) ∧
    (convert_text ['g', 'q'] (build_mapping kmScenario "en_us" "ru_pc")).getD 0 ' ' =
      ((build_mapping kmScenario "en_us" "ru_pc") ((['g', 'q'] : List Char).getD 0 ' ')).getD
        ((['g', 'q'] : List Char).getD 0 ' ') :=
  ⟨by decide,
    (claim2_convert_pointwise ['g', 'q'] (build_mapping kmScenario "en_us" "ru_pc")).2 0
      (by decide)⟩

/-- C3, as stated, is false: if two physical keys produce the same
character on the target layout, converting there and back picks, for both,
the source character of the later key. In `kmCollide`, the text `"a"` is
composed only of characters produced via keys present in both layouts,
yet the round trip returns `"b"`. -/
theorem claim3_counterexample :
    (∀ c ∈ (['a'] : List Char), c ∈ (entryList kmCollide "L1" "L2").map Prod.fst) ∧
    convert_text (convert_text ['a'] (build_mapping kmCollide "L1" "L2"))
        (build_mapping kmCollide "L2" "L1") ≠ ['a'] := by decide

/-- C3 (amended): round trip holds for text composed only of characters
shared by both layouts, provided the join's entries are duplicate-free on
the target side (the target layout assigns distinct characters across the
fully-defined shared entries). Source-side duplicates are harmless: the
forward map picks the last entry for a source character, and the unique
entry bearing that target character is that very entry, so the reverse
map returns the original character. -/
theorem claim3_roundtrip (km : KeyMap) (sL tL : String) (text : List Char)
    (h2 : ((entryList km sL tL).map Prod.snd).Nodup)
    (ht : ∀ c ∈ text, c ∈ (entryList km sL tL).map Prod.fst) :
    convert_text (convert_text text (build_mapping km sL tL))
      (build_mapping km tL sL) = text := by
  unfold convert_text
  rw [List.map_map]
  have hpt : ∀ c ∈ text,
      ((build_mapping km tL sL ((build_mapping km sL tL c).getD c)).getD
        ((build_mapping km sL tL c).getD c)) = c := by
    intro c hc
    obtain ⟨d, hl, hcd⟩ := lookupLast_mem_of_mem_fst (entryList km sL tL) c (ht c hc)
    have h₁ : build_mapping km sL tL c = some d := by
      rw [build_mapping_eq_lookupLast]
      exact hl
    have h₂ : build_mapping km tL sL d = some c := by
      rw [build_mapping_eq_lookupLast, entryList_swap]
      have hmapswap : List.map Prod.fst (List.map Prod.swap (entryList km sL tL)) =
          List.map Prod.snd (entryList km sL tL) := by
        rw [List.map_map]; simp [Function.comp]
      refine lookupLast_eq_some_of_nodup _ _ _ ?_ ?_
      · rw [hmapswap]; exact h2
      · simpa using List.mem_map_of_mem Prod.swap hcd
    rw [h₁]
    simp only [Option.getD_some]
    rw [h₂]
    simp
  have hcomp : ∀ c ∈ text,
      ((fun c => (build_mapping km tL sL c).getD c) ∘
        fun c => (build_mapping km sL tL c).getD c) c = id c := by
    intro c hc
    simpa [Function.comp] using hpt c hc
  rw [List.map_congr_left hcomp, List.map_id]

/-- Witness for C3 at the Scenario-1 table: `"пП"` converted
`ru_pc → en_us` and back is unchanged. -/
theorem claim3_roundtrip_witness :
    (((entryList kmScenario "ru_pc" "en_us").map Prod.snd).Nodup ∧
      (∀ c ∈ (['п', 'П'] : List Char),
        c ∈ (entryList kmScenario "ru_pc" "en_us").map Prod.fst)) ∧
    convert_text (convert_text ['п', 'П'] (build_mapping kmScenario "ru_pc" "en_us"))
      (build_mapping kmScenario "en_us" "ru_pc") = ['п', 'П'] :=
  ⟨⟨by decide, by decide⟩,
    claim3_roundtrip kmScenario "ru_pc" "en_us" ['п', 'П']
      (by decide) (by decide)⟩

/-! ## Claims about trigram training -/

/-- Every slice produced by `extract_trigrams` within range has length 3,
so the defensive filter keeps everything and the trigram count is
`length − 2` (truncated subtraction: a text shorter than 3 yields none). -/
theorem extract_trigrams_length (text : List Char) :
    (extract_trigrams text).length = text.length - 2 := by
  unfold extract_trigrams
  have hall : ∀ g ∈ (List.range (text.length - 2)).map
      (fun i => (text.drop i).take 3), decide (g.length = 3) = true := by
    intro g hg
    obtain ⟨i, hi, rfl⟩ := List.mem_map.mp hg
    have hi' : i < text.length - 2 := List.mem_range.mp hi
    have : ((text.drop i).take 3).length = 3 := by
      rw [List.length_take, List.length_drop]
      omega
    simp [this]
  rw [List.filter_eq_self.mpr hall, List.length_map, List.length_range]

/-- The per-line trigram contribution in `train_model`: `m − 2` when the
normalized stripped line has length `m ≥ 3`, else nothing. -/
theorem lineTrigrams_length (lang : Lang) (line : List Char) :
    (lineTrigrams lang line).length =
      (if 3 ≤ (normalize_text (pystrip line) lang).length
        then (normalize_text (pystrip line) lang).length - 2 else 0) := by
  unfold lineTrigrams
  by_cases hstrip : (pystrip line).isEmpty
  · have hnil : pystrip line = [] := List.isEmpty_iff.mp hstrip
    rw [if_pos hstrip]
    rw [hnil]
    simp [normalize_text]
  · rw [if_neg hstrip]
    by_cases hlen : (normalize_text (pystrip line) lang).length < 3
    · rw [if_pos hlen, if_neg (by omega)]
      rfl
    · rw [if_neg hlen, if_pos (by omega), extract_trigrams_length]

/-- C4: for every corpus, the `total_count` recorded in the trained model
equals the sum of all accumulated trigram counts, and equals the sum over
the lines of the corpus of `m − 2` for each line whose normalized form
has length `m ≥ 3` (shorter lines contribute nothing). -/
theorem claim4_count_conservation (lines : List (List Char)) (lang : Lang)
    (k : ℚ) (h : allTrigrams lang lines ≠ []) :
    (train_model lines lang k).map Model.total_count =
      some (((vocab lang lines).map fun t => trigramCount lang lines t).sum) ∧
    (train_model lines lang k).map Model.total_count =
      some ((lines.map fun l =>
          if 3 ≤ (normalize_text (pystrip l) lang).length
            then (normalize_text (pystrip l) lang).length - 2 else 0).sum) := by
  have htm : (train_model lines lang k).map Model.total_count =
      some (totalCount lang lines) := by
    unfold train_model
    rw [if_neg h]
    rfl
  constructor
  · rw [htm]
    congr 1
    unfold totalCount vocab trigramCount
    exact (List.sum_map_count_dedup_eq_length (allTrigrams lang lines)).symm
  · rw [htm]
    congr 1
    unfold totalCount allTrigrams
    rw [List.length_flatMap]
    exact congrArg List.sum
      (List.map_congr_left fun l _ => by simpa using lineTrigrams_length lang l)

/-- Witness for C4 on the one-line corpus `["abc"]` (English). -/
theorem claim4_count_conservation_witness :
    (allTrigrams Lang.en ["abc".toList] ≠ []) ∧
    ((train_model ["abc".toList] Lang.en 1).map Model.total_count =
      some (((vocab Lang.en ["abc".toList]).map
        fun t => trigramCount Lang.en ["abc".toList] t).sum) ∧
    (train_model ["abc".toList] Lang.en 1).map Model.total_count =
      some ((["abc".toList].map fun l =>
          if 3 ≤ (normalize_text (pystrip l) Lang.en).length
            then (normalize_text (pystrip l) Lang.en).length - 2 else 0).sum)) :=
  ⟨by decide, claim4_count_conservation ["abc".toList] Lang.en 1 (by decide)⟩

/-- Rounding to two decimals preserves non-positivity. -/
theorem round2_nonpos (x : ℝ) (h : x ≤ 0) : round2 x ≤ 0 := by
  unfold round2
  have hfloor : round (x * 100) ≤ 0 := by
    rw [round_eq]
    have h1 : ⌊x * 100 + 1 / 2⌋ ≤ ⌊(1 : ℝ) / 2⌋ := by
      refine Int.floor_le_floor ?_
      nlinarith
    have h2 : ⌊(1 : ℝ) / 2⌋ = 0 := by norm_num
    omega
  have hcast : ((round (x * 100) : ℤ) : ℝ) ≤ 0 := by exact_mod_cast hfloor
  exact div_nonpos_of_nonpos_of_nonneg hcast (by norm_num)

/-- A value below `-1/200` rounds to a strictly negative hundredth. -/
theorem round2_neg (x : ℝ) (h : x < -(1 / 200)) : round2 x < 0 := by
  unfold round2
  have hfloor : round (x * 100) < 0 := by
    rw [round_eq]
    refine Int.floor_lt.mpr ?_
    push_cast
    nlinarith
  have hcast : ((round (x * 100) : ℤ) : ℝ) < 0 := by exact_mod_cast hfloor
  exact div_neg_of_neg_of_pos hcast (by norm_num)

/-- C5: for every corpus with at least one extracted trigram and every
smoothing constant `k > 0`, each smoothed probability lies in `(0, 1]`
and the stored rounded log-probability is `≤ 0`. -/
theorem claim5_smoothing_bounds (lang : Lang) (lines : List (List Char))
    (k : ℚ) (hk : 0 < k) (_hne : allTrigrams lang lines ≠ [])
    (t : List Char) (ht : t ∈ vocab lang lines) :
    0 < prob lang lines k t ∧ prob lang lines k t ≤ 1 ∧
      storedLogProb lang lines k t ≤ 0 := by
  have htl : t ∈ allTrigrams lang lines := List.mem_dedup.mp ht
  have hc1 : 1 ≤ trigramCount lang lines t := by
    unfold trigramCount
    exact (@List.count_pos_iff (List Char) instBEqOfDecidableEq _ t
      (allTrigrams lang lines)).mpr htl
  have hcT : trigramCount lang lines t ≤ totalCount lang lines :=
    @List.count_le_length (List Char) instBEqOfDecidableEq t (allTrigrams lang lines)
  have hV1 : 1 ≤ vocabSize lang lines := by
    unfold vocabSize
    exact List.length_pos.mpr (List.ne_nil_of_mem ht)
  have hcq : (1 : ℚ) ≤ (trigramCount lang lines t : ℚ) := by exact_mod_cast hc1
  have hcTq : (trigramCount lang lines t : ℚ) ≤ (totalCount lang lines : ℚ) := by
    exact_mod_cast hcT
  have hVq : (1 : ℚ) ≤ (vocabSize lang lines : ℚ) := by exact_mod_cast hV1
  have hkV : k ≤ k * (vocabSize lang lines : ℚ) := by nlinarith
  have hdenom : 0 < (totalCount lang lines : ℚ) + k * (vocabSize lang lines : ℚ) := by
    nlinarith
  have hpos : 0 < prob lang lines k t := by
    unfold prob
    exact div_pos (by nlinarith) hdenom
  have hle : prob lang lines k t ≤ 1 := by
    unfold prob
    rw [div_le_one hdenom]
    nlinarith
  refine ⟨hpos, hle, ?_⟩
  unfold storedLogProb
  refine round2_nonpos _ ?_
  refine Real.log_nonpos ?_ ?_
  · exact_mod_cast hpos.le
  · exact_mod_cast hle

/-- Witness for C5 on the one-line corpus `["abc"]` with `k = 1`. -/
theorem claim5_smoothing_bounds_witness :
    ((0 : ℚ) < 1 ∧ allTrigrams Lang.en ["abc".toList] ≠ [] ∧
      "abc".toList ∈ vocab Lang.en ["abc".toList]) ∧
    (0 < prob Lang.en ["abc".toList] 1 "abc".toList ∧
      prob Lang.en ["abc".toList] 1 "abc".toList ≤ 1 ∧
      storedLogProb Lang.en ["abc".toList] 1 "abc".toList ≤ 0) :=
  ⟨⟨by norm_num, by decide, by decide⟩,
    claim5_smoothing_bounds Lang.en ["abc".toList] 1 (by norm_num) (by decide)
      "abc".toList (by decide)⟩

/-- C6: training on `["привет мир", "привет всем"]` with `k = 1` and
`lang = ru` records `total_count = 15` (7 trigrams from `"приветмир"`
plus 8 from `"приветвсем"`), and every stored trigram log-probability is
strictly negative. -/
theorem claim6_scenario3 :
    (train_model corpus6 Lang.ru 1).map Model.total_count = some 15 ∧
    ∀ q ∈ modelTrigrams Lang.ru corpus6 1, q.2 < 0 := by
  constructor
  · unfold train_model
    rw [if_neg (by decide : ¬allTrigrams Lang.ru corpus6 = [])]
    show some (totalCount Lang.ru corpus6) = some 15
    decide
  · intro q hq
    obtain ⟨t, ht, rfl⟩ := List.mem_map.mp hq
    show storedLogProb Lang.ru corpus6 1 t < 0
    have hcnt : trigramCount Lang.ru corpus6 t ≤ 2 := by
      have hall : ∀ u ∈ vocab Lang.ru corpus6,
          trigramCount Lang.ru corpus6 u ≤ 2 := by decide
      exact hall t ht
    have hTot : totalCount Lang.ru corpus6 = 15 := by decide
    have hV : vocabSize Lang.ru corpus6 = 11 := by decide
    have hcq : ((trigramCount Lang.ru corpus6 t : ℚ)) ≤ 2 := by exact_mod_cast hcnt
    have hprob_pos : 0 < prob Lang.ru corpus6 1 t := by
      unfold prob
      rw [hTot, hV]
      positivity
    have hprob_le : prob Lang.ru corpus6 1 t ≤ 3 / 26 := by
      unfold prob
      rw [hTot, hV]
      push_cast
      rw [div_le_div_iff₀ (by norm_num) (by norm_num)]
      nlinarith
    unfold storedLogProb
    refine round2_neg _ ?_
    have hposR : (0 : ℝ) < ((prob Lang.ru corpus6 1 t : ℚ) : ℝ) := by
      exact_mod_cast hprob_pos
    have hleR : ((prob Lang.ru corpus6 1 t : ℚ) : ℝ) ≤ ((3 / 26 : ℚ) : ℝ) :=
      Rat.cast_le.mpr hprob_le
    have hexp : (199 : ℝ) / 200 < Real.exp (-(1 / 200)) := by
      have h := Real.add_one_lt_exp (show (-(1 / 200) : ℝ) ≠ 0 by norm_num)
      linarith
    have hlt : ((prob Lang.ru corpus6 1 t : ℚ) : ℝ) < Real.exp (-(1 / 200)) :=
      lt_of_le_of_lt (le_trans hleR (by norm_num)) hexp
    have hlog := (Real.log_lt_iff_lt_exp hposR).mpr hlt
    linarith

/-- Witness for C6: the trigram `"при"` is stored with a strictly
negative log-probability. -/
theorem claim6_scenario3_witness :
    ((['п', 'р', 'и'], storedLogProb Lang.ru corpus6 1 ['п', 'р', 'и']) ∈
      modelTrigrams Lang.ru corpus6 1) ∧
    (['п', 'р', 'и'], storedLogProb Lang.ru corpus6 1 ['п', 'р', 'и']).2 < 0 :=
  ⟨List.mem_map_of_mem _ (by decide : (['п', 'р', 'и'] : List Char) ∈ vocab Lang.ru corpus6),
    claim6_scenario3.2 (['п', 'р', 'и'], storedLogProb Lang.ru corpus6 1 ['п', 'р', 'и'])
      (List.mem_map_of_mem _ (by decide))⟩

/-! ## Claims about dataset generation and validation -/

/-- C7: when a wrong-layout class is requested and no candidate
conversion map exists for its layout-pair key, `generate_sample` raises
nothing and returns the sentinel text `"x"` with the requested label. -/
theorem claim7_missing_map_sentinel
    (seeds : List Char → Option (List (List Char)))
    (class_name : List Char)
    (maps : List Char → List (Char → Option Char))
    (rand : Rand) (max_phrase_len : Nat)
    (p0 p1 : List Char) (rest : List (List Char))
    (hpure : class_name ∉ pureClasses)
    (hsplit : pysplit class_name sepFrom = p0 :: p1 :: rest)
    (hmaps : maps (p1 ++ sepFrom ++ p0) = []) :
    generate_sample seeds class_name maps rand max_phrase_len =
      some (['x'], class_name) := by
  unfold generate_sample
  rw [if_neg hpure, hsplit]
  have hmaps' : maps (p1 ++ (sepFrom ++ p0)) = [] := by
    rw [← List.append_assoc]; exact hmaps
  simp [hmaps, hmaps']

/-- Witness for C7: class `"ru_from_en"` with an empty map table. -/
theorem claim7_missing_map_sentinel_witness :
    ("ru_from_en".toList ∉ pureClasses ∧
      pysplit "ru_from_en".toList sepFrom = "ru".toList :: "en".toList :: [] ∧
      (fun _ : List Char => ([] : List (Char → Option Char)))
        ("en".toList ++ sepFrom ++ "ru".toList) = []) ∧
    generate_sample (fun _ => none) "ru_from_en".toList (fun _ => [])
      ⟨0, fun _ => 0, 0⟩ 3 = some (['x'], "ru_from_en".toList) :=
  ⟨⟨by decide, by decide, rfl⟩,
    claim7_missing_map_sentinel (fun _ => none) "ru_from_en".toList (fun _ => [])
      ⟨0, fun _ => 0, 0⟩ 3 "ru".toList "en".toList [] (by decide) (by decide) rfl⟩

/-- C8, as stated, is false: `validate_model` only requires
`lang`, `n`, `version` and `trigrams`; a model missing `smoothing_k`
(or `total_count` or `unique_trigrams`) still validates. -/
theorem claim8_counterexample :
    mdMissingK.smoothing_k = none ∧ validate_model mdMissingK = true :=
  ⟨rfl, rfl⟩

/-- C8 (amended): a model dictionary missing any of the four fields the
code actually requires — `lang`, `n`, `version`, `trigrams` — fails
validation (`validate_model` returns `False`, so training exits without
saving); missing `smoothing_k`, `total_count` or `unique_trigrams` is
not checked. -/
theorem claim8_required_fields (m : ModelDict)
    (h : m.lang = none ∨ m.n = none ∨ m.version = none ∨ m.trigrams = none) :
    validate_model m = false := by
  unfold validate_model
  rcases h with h | h | h | h <;> simp [h]

/-- Witness for C8 on a dictionary missing `lang`. -/
theorem claim8_required_fields_witness :
    (mdMissingLang.lang = none ∨ mdMissingLang.n = none ∨
      mdMissingLang.version = none ∨ mdMissingLang.trigrams = none) ∧
    validate_model mdMissingLang = false :=
  ⟨Or.inl rfl, claim8_required_fields mdMissingLang (Or.inl rfl)⟩

/-- C9: whenever, after processing a line, the distinct-word count
exceeds `prune_max_vocab`, the table is immediately reduced to its
`prune_keep` most frequent entries; consequently after every line
boundary the number of distinct retained words is at most
`max prune_max_vocab prune_keep`. -/
theorem claim9_prune_invariant :
    (∀ (valid : Char → Bool) (min_len prune_max_vocab prune_keep : Nat)
        (cs : List (List Char × Nat)) (line : List Char),
        prune_max_vocab < (processLine valid min_len cs line).length →
        lineStep valid min_len prune_max_vocab prune_keep cs line =
          most_common (processLine valid min_len cs line) prune_keep) ∧
    (∀ (lang : Lang) (min_len prune_max_vocab prune_keep : Nat)
        (lines : List (List Char)),
        (unigramCounts lang min_len prune_max_vocab prune_keep lines).length ≤
          max prune_max_vocab prune_keep) := by
  have hmc : ∀ (cs : List (List Char × Nat)) (n : Nat),
      (most_common cs n).length ≤ n := by
    intro cs n
    unfold most_common
    rw [List.length_take]
    exact min_le_left _ _
  have hstep : ∀ (valid : Char → Bool) (min_len maxV keep : Nat)
      (cs : List (List Char × Nat)) (line : List Char),
      (lineStep valid min_len maxV keep cs line).length ≤ max maxV keep := by
    intro valid min_len maxV keep cs line
    unfold lineStep pruneStep
    by_cases h : maxV < (processLine valid min_len cs line).length
    · rw [if_pos h]
      exact le_trans (hmc _ _) (le_max_right _ _)
    · rw [if_neg h]
      exact le_trans (Nat.le_of_not_lt h) (le_max_left _ _)
  constructor
  · intro valid min_len maxV keep cs line h
    unfold lineStep pruneStep
    rw [if_pos h]
  · intro lang min_len maxV keep lines
    unfold unigramCounts
    have hfold : ∀ (ls : List (List Char)) (cs : List (List Char × Nat)),
        (ls.foldl (lineStep (valid_chars lang) min_len maxV keep) cs).length ≤
          max cs.length (max maxV keep) := by
      intro ls
      induction ls with
      | nil => intro cs; exact le_max_left _ _
      | cons l t ih =>
          intro cs
          rw [List.foldl_cons]
          refine le_trans (ih _) ?_
          have h1 : (lineStep (valid_chars lang) min_len maxV keep cs l).length ≤
              max maxV keep := hstep _ _ _ _ _ _
          exact le_trans (max_le (le_trans h1 (le_max_right cs.length _))
            (le_max_right cs.length _)) le_rfl
    have := hfold lines []
    simpa using this

/-- Witness for C9: with ceiling 1 and keep 1, a line adding two words
triggers the prune. -/
theorem claim9_prune_invariant_witness :
    (1 < (processLine (valid_chars Lang.en) 1 [] "ab cd".toList).length) ∧
    lineStep (valid_chars Lang.en) 1 1 1 [] "ab cd".toList =
      most_common (processLine (valid_chars Lang.en) 1 [] "ab cd".toList) 1 :=
  ⟨by decide,
    claim9_prune_invariant.1 (valid_chars Lang.en) 1 1 1 [] "ab cd".toList (by decide)⟩

/-! ## Claims about normalization -/

theorem toNat_ofNat_lt (v : Nat) (h : v < 55296) : (Char.ofNat v).toNat = v := by
  have hv : v.isValidChar := Or.inl h
  simp [Char.ofNat, hv, Char.toNat, Char.ofNatAux, UInt32.toNat, BitVec.toNat_ofNatLt]

theorem lowerNat_lt (v : Nat) (h : lowerNat v ≠ v) : lowerNat v < 55296 := by
  unfold lowerNat at *
  split_ifs at * <;> omega

theorem lowerNat_idem (v : Nat) : lowerNat (lowerNat v) = lowerNat v := by
  unfold lowerNat
  split_ifs <;> omega

theorem toNat_pyLower (c : Char) : (pyLower c).toNat = lowerNat c.toNat := by
  unfold pyLower
  split_ifs with h
  · exact h.symm
  · exact toNat_ofNat_lt _ (lowerNat_lt _ h)

/-- The character-wise lowercase map is idempotent. -/
theorem pyLower_idem (c : Char) : pyLower (pyLower c) = pyLower c := by
  have hfix : lowerNat ((pyLower c).toNat) = (pyLower c).toNat := by
    rw [toNat_pyLower, lowerNat_idem]
  show (if lowerNat (pyLower c).toNat = (pyLower c).toNat then pyLower c
    else Char.ofNat (lowerNat (pyLower c).toNat)) = pyLower c
  rw [if_pos hfix]

/-- C10: normalization is idempotent, every output character is in the
language's valid-letter set, and the output is a subsequence of the
lowercased input. -/
theorem claim10_normalize_idempotent (s : List Char) (lang : Lang) :
    normalize_text (normalize_text s lang) lang = normalize_text s lang ∧
    (∀ c ∈ normalize_text s lang, valid_chars lang c = true) ∧
    (normalize_text s lang).Sublist (s.map pyLower) := by
  refine ⟨?_, ?_, ?_⟩
  · have hfix : ∀ c ∈ (s.map pyLower).filter (valid_chars lang), pyLower c = c := by
      intro c hcf
      obtain ⟨x, _, hxe⟩ := List.mem_map.mp (List.mem_of_mem_filter hcf)
      rw [← hxe]
      exact pyLower_idem x
    unfold normalize_text
    have hmap : ((s.map pyLower).filter (valid_chars lang)).map pyLower =
        (s.map pyLower).filter (valid_chars lang) := by
      rw [List.map_congr_left hfix]
      exact List.map_id' _
    rw [hmap]
    exact List.filter_eq_self.mpr fun a ha => List.of_mem_filter ha
  · intro c hc
    exact List.of_mem_filter hc
  · exact List.filter_sublist _

end OMFK
